import Mathlib

/-!
Shallow embedding of the event-history subsystem of `lib/state.ts` (waidrin).

The embedding models the pieces of the persisted application state that the
history operations read and write: the event log (`state.events`, a JS array),
the history store (`state.eventHistory`, a JS object keyed by the stringified
event index), and the pagination scratch state, together with the operations
`ensureEventHistory`, `addEventHistoryVersion`, `selectEventHistoryVersion`,
`deleteEventHistoryVersion`, `getEventHistoryPage`, `getEventHistoryPageCount`
and `deleteEvent`.

Modelling conventions, justified against the source:
* JS numbers used as indices are modelled as `Int` (every call site passes an
  integer); timestamps (`Date.now()`) are opaque `Nat` parameters called `now`.
* The history store is a JS object whose keys are always produced by
  `String(i)` for an integer `i` (`lib/state.ts` never writes any other key),
  and `Number.parseInt` of such a canonical key returns `i` and is never
  `NaN`.  The object is therefore modelled as an association list
  `List (Int × EventHistory)`; reads take the first matching pair, writes
  update an existing pair in place or append, exactly like a JS object
  (which can never actually hold a duplicate key).
-/

/-- The four event kinds of the `Event` zod schema (`action`, `narration`,
`character_introduction`, `location_change`).  The payload carried by each
kind is modelled from the spec (section 3): kind-specific data such as action
text or narration text.  The history operations only copy events as whole
values and test the `type` discriminant, so the exact payload shape is
irrelevant to every theorem below. -/
inductive Event where
  | action (text : String)
  | narration (text : String)
  | characterIntroduction (characterIndex : Nat)
  | locationChange (locationIndex : Nat)
  deriving DecidableEq, Repr

/-- The discriminant test `event.type === "action"` used when seeding a
history entry. -/
def Event.isAction : Event → Bool
  | .action _ => true
  | _ => false

/-- Provenance tag of a history entry: the `type` field of
`EventHistoryEntry`, either `"edit"` or `"regenerate"`. -/
inductive VersionType where
  | edit
  | regenerate
  deriving DecidableEq, Repr

/-- One version entry of an event's history: `{ event, timestamp, type }`. -/
structure EventHistoryEntry where
  event : Event
  timestamp : Nat
  type : VersionType
  deriving DecidableEq, Repr

/-- One event's history: `{ entries, currentVersionIndex }`.  The source
stores `currentVersionIndex` as a JS number; every value it ever writes
(`0`, `entries.length - 1`, a guarded non-negative `versionIndex`,
`Math.max(0, versionIndex - 1)`, a decrement of a positive index) is a
non-negative integer, so `Nat` is faithful. -/
structure EventHistory where
  entries : List EventHistoryEntry
  currentVersionIndex : Nat
  deriving DecidableEq, Repr

/-- The history store `state.eventHistory`: a JS object keyed by
`String(eventIndex)`, modelled as an association list (see the header). -/
abbrev HistoryStore := List (Int × EventHistory)

/-- JS object read `eventHistory[key]`: the value of the first (in a real JS
object, only) pair with the given key, or `undefined` (`none`). -/
def histGet (m : HistoryStore) (k : Int) : Option EventHistory :=
  (m.find? (fun e => e.1 == k)).map (fun e => e.2)

/-- JS object write `eventHistory[key] = v`: update the pair in place when
the key is present, append otherwise. -/
def histSet (m : HistoryStore) (k : Int) (v : EventHistory) : HistoryStore :=
  if m.any (fun e => e.1 == k) then
    m.map (fun e => if e.1 == k then (k, v) else e)
  else
    m ++ [(k, v)]

/-- JS `delete eventHistory[key]`. -/
def histErase (m : HistoryStore) (k : Int) : HistoryStore :=
  m.filter (fun e => !(e.1 == k))

/-- The pagination scratch state `state.historyPagination`. -/
structure HistoryPagination where
  eventIndex : Int
  page : Int
  pageSize : Int
  deriving DecidableEq, Repr

/-- The `State` fields other than the event log, the history store and the
pagination scratch state.  No history operation reads or writes any of them;
three representative fields stand in for the rest (`apiUrl`, `view`,
`actions`). -/
structure OtherState where
  apiUrl : String
  view : String
  actions : List String
  deriving DecidableEq, Repr

/-- The slice of the persisted application state that the history operations
touch. -/
structure GameState where
  events : List Event
  eventHistory : HistoryStore
  historyPagination : Option HistoryPagination
  other : OtherState
  deriving DecidableEq, Repr

/-- JS array read `state.events[i]`: `undefined` (`none`) when `i` is
negative or at or past the end. -/
def arrGet (l : List Event) (i : Int) : Option Event :=
  if 0 ≤ i then l[i.toNat]? else none

/-- JS array write `state.events[i] = x`.  Every write the operations perform
is at an index currently holding an event (each is guarded by the existence
of a history entry, which under the divergence invariant implies the index is
in range), where `List.set` agrees with JS.  A JS write at a negative index
stores a plain object property and leaves the array elements untouched,
matching the `List.set` out-of-range no-op; a JS write past the end would
grow the array, but no operation reaches that case in the regimes the
theorems below consider. -/
def arrSet (l : List Event) (i : Int) (x : Event) : List Event :=
  if 0 ≤ i then l.set i.toNat x else l

/-- The seed version entry built from the event currently in the log:
`{ event: { ...event }, timestamp: Date.now(), type: event.type === "action"
? "edit" : "regenerate" }`. -/
def seedEntry (event : Event) (now : Nat) : EventHistoryEntry :=
  { event := event
    timestamp := now
    type := if event.isAction then VersionType.edit else VersionType.regenerate }

/-- The one-entry history created on first touch: `{ entries: [seed],
currentVersionIndex: 0 }`. -/
def seededHistory (event : Event) (now : Nat) : EventHistory :=
  { entries := [seedEntry event now], currentVersionIndex := 0 }

/-- The lazy-initialization block shared by `ensureEventHistory` and
`addEventHistoryVersion` (it appears verbatim in both): when no history
exists at `eventIndex` and an event exists there, create a one-entry history
seeded from the current event; otherwise do nothing. -/
def seedHistory (eventIndex : Int) (now : Nat) (s : GameState) : GameState :=
  if (histGet s.eventHistory eventIndex).isNone then
    match arrGet s.events eventIndex with
    | some event =>
        { s with eventHistory := histSet s.eventHistory eventIndex (seededHistory event now) }
    | none => s
  else s

/-- `ensureEventHistory(eventIndex)` from `lib/state.ts` (lines 170–195). -/
def ensureEventHistory (eventIndex : Int) (now : Nat) (s : GameState) : GameState :=
  if eventIndex < 0 then s
  else seedHistory eventIndex now s

/-- `addEventHistoryVersion(eventIndex, newEvent, type)` from `lib/state.ts`
(lines 200–237).  The two `Date.now()` calls (seed entry and new entry) are
modelled with the same clock value `now`; no theorem below depends on
timestamp values. -/
def addEventHistoryVersion (eventIndex : Int) (newEvent : Event)
    (type : VersionType) (now : Nat) (s : GameState) : GameState :=
  if eventIndex < 0 then s
  else
    let s1 := seedHistory eventIndex now s
    match histGet s1.eventHistory eventIndex with
    | some history =>
        let entries := history.entries ++
          [{ event := newEvent, timestamp := now, type := type }]
        let updated : EventHistory := { entries := entries, currentVersionIndex := entries.length - 1 }
        { s1 with
          eventHistory := histSet s1.eventHistory eventIndex updated,
          events := arrSet s1.events eventIndex newEvent }
    | none => s1

/-- `selectEventHistoryVersion(eventIndex, versionIndex)` from `lib/state.ts`
(lines 242–251).  The source guard `versionIndex >= 0 && versionIndex <
history.entries.length` is rendered as `0 ≤ versionIndex` together with the
indexed read succeeding. -/
def selectEventHistoryVersion (eventIndex versionIndex : Int) (s : GameState) :
    GameState :=
  match histGet s.eventHistory eventIndex with
  | some history =>
      if 0 ≤ versionIndex then
        match history.entries[versionIndex.toNat]? with
        | some entry =>
            let updated : EventHistory := { history with currentVersionIndex := versionIndex.toNat }
            { s with
              eventHistory := histSet s.eventHistory eventIndex updated,
              events := arrSet s.events eventIndex entry.event }
        | none => s
      else s
  | none => s

/-- `deleteEventHistoryVersion(eventIndex, versionIndex)` from `lib/state.ts`
(lines 256–287).  `entries.splice(versionIndex, 1)` is `List.eraseIdx`;
`Math.max(0, versionIndex - 1)` is `max 0 (v - 1)` (truncated `Nat`
subtraction agrees, since `v ≥ 0`).  In the was-current branch the source
reads `history.entries[history.currentVersionIndex]` unconditionally; that
read is always in range there (`max 0 (v - 1) < entries.length - 1` follows
from the guards `v < entries.length` and `entries.length > 1`), so the
`none` fallback below is unreachable. -/
def deleteEventHistoryVersion (eventIndex versionIndex : Int) (s : GameState) :
    GameState :=
  match histGet s.eventHistory eventIndex with
  | some history =>
      if versionIndex < 0 ∨ (history.entries.length : Int) ≤ versionIndex then s
      else if history.entries.length ≤ 1 then s
      else
        -- wasCurrent / wasBeforeCurrent from the source, with
        -- `v = versionIndex.toNat`
        let v := versionIndex.toNat
        let entries := history.entries.eraseIdx v
        if history.currentVersionIndex = v then
          let current := max 0 (v - 1)
          let updated : EventHistory := { entries := entries, currentVersionIndex := current }
          let newEvents :=
            match entries[current]? with
            | some entry => arrSet s.events eventIndex entry.event
            | none => s.events
          { s with
            eventHistory := histSet s.eventHistory eventIndex updated,
            events := newEvents }
        else if v < history.currentVersionIndex then
          let updated : EventHistory :=
            { entries := entries, currentVersionIndex := history.currentVersionIndex - 1 }
          { s with eventHistory := histSet s.eventHistory eventIndex updated }
        else
          let updated : EventHistory :=
            { entries := entries, currentVersionIndex := history.currentVersionIndex }
          { s with eventHistory := histSet s.eventHistory eventIndex updated }
  | none => s

/-- JS `Array.prototype.slice(start, end)` with integer arguments: a negative
bound counts from the end, and both bounds are clamped to `[0, length]`. -/
def jsSlice (l : List EventHistoryEntry) (start stop : Int) :
    List EventHistoryEntry :=
  let len : Int := l.length
  let s := if start < 0 then max (len + start) 0 else min start len
  let e := if stop < 0 then max (len + stop) 0 else min stop len
  (l.drop s.toNat).take (e - s).toNat

/-- `getEventHistoryPage(eventIndex, page, pageSize)` from `lib/state.ts`
(lines 292–302): `history.entries.slice(page * pageSize, page * pageSize +
pageSize)`, or `[]` when no history exists. -/
def getEventHistoryPage (eventIndex page pageSize : Int) (s : GameState) :
    List EventHistoryEntry :=
  match histGet s.eventHistory eventIndex with
  | some history => jsSlice history.entries (page * pageSize) (page * pageSize + pageSize)
  | none => []

/-- Embedding of `Math.ceil(n / m)` for natural `n` and positive natural `m`,
the only shape the source produces: `pageSize` is always the positive
default `5` (both call sites in `EventHistoryViewer.tsx` pass `pageSize = 5`). -/
def jsCeilDiv (n m : Nat) : Nat :=
  n / m + (if n % m = 0 then 0 else 1)

/-- `getEventHistoryPageCount(eventIndex, pageSize)` from `lib/state.ts`
(lines 307–315): `Math.ceil(history.entries.length / pageSize)`, or `0` when
no history exists. -/
def getEventHistoryPageCount (eventIndex : Int) (pageSize : Nat) (s : GameState) :
    Nat :=
  match histGet s.eventHistory eventIndex with
  | some history => jsCeilDiv history.entries.length pageSize
  | none => 0

/-- `setHistoryPagination(eventIndex, page, pageSize)` from `lib/state.ts`
(lines 320–328). -/
def setHistoryPagination (eventIndex page pageSize : Int) (s : GameState) :
    GameState :=
  let p : HistoryPagination := { eventIndex := eventIndex, page := page, pageSize := pageSize }
  { s with historyPagination := some p }

/-- `clearHistoryPagination()` from `lib/state.ts` (lines 333–337). -/
def clearHistoryPagination (s : GameState) : GameState :=
  { s with historyPagination := none }

/-- The re-key loop of `deleteEvent` (lines 358–373): rebuild the store into
a fresh object, shifting every key above the deleted index down by one,
keeping keys below it, and skipping the deleted index itself.  The
`Number.parseInt`/`Number.isNaN` guard never fires because every key is a
canonical integer string (see the header).  JS enumerates integer-like keys
in ascending numeric order; the rebuilt object's reads do not depend on that
order because the re-keying is injective, and the lemmas below about
`histGet` of the result are proved for an arbitrary enumeration order. -/
def rekeyStep (eventIndex : Int) (acc : HistoryStore) (e : Int × EventHistory) :
    HistoryStore :=
  if e.1 > eventIndex then acc ++ [(e.1 - 1, e.2)]
  else if e.1 < eventIndex then acc ++ [e]
  else acc

/-- The fold over `Object.entries` driving the re-key loop; its body is
`rekeyStep`.  The loop writes into the fresh `newHistory` object, which is
modelled by appending (the shifted keys are pairwise distinct, so appending
and object assignment agree). -/
def rekeyAfterDelete (m : HistoryStore) (eventIndex : Int) : HistoryStore :=
  m.foldl (rekeyStep eventIndex) []

/-- `deleteEvent(eventIndex)` from `lib/state.ts` (lines 342–376):
`events.splice(eventIndex, 1)` (`List.eraseIdx`), `delete
eventHistory[key]`, then the re-key rebuild. -/
def deleteEvent (eventIndex : Int) (s : GameState) : GameState :=
  if eventIndex < 0 then s
  else
    { s with
      events := s.events.eraseIdx eventIndex.toNat,
      eventHistory := rekeyAfterDelete (histErase s.eventHistory eventIndex) eventIndex }

/-- A draft/store pair as seen during one `setAsync` step: the immer draft
the updater mutates, and the backing zustand store, which the updater may
also write directly (the engine calls `set` during state-machine steps). -/
structure DraftAndStore (St : Type) where
  draft : St
  stored : St

/-- `setAsync(updater)` from `lib/state.ts` (lines 118–139), for one step.
The step's work is a list of micro-mutations applied in order to the
draft/store pair; `failsAt = some (j, e)` means the updater throws `e` after
the first `j` mutations.  On success the draft is finalized
(`finishDraft`/`set`) and becomes the stored state; on a throw the partially
mutated draft is discarded, `set(state)` restores the pre-step snapshot
(rolling back any direct store writes of the prefix), and the error is
re-thrown (returned alongside the stored state). -/
def runSetAsync {St E : Type} (stored0 : St)
    (mutations : List (DraftAndStore St → DraftAndStore St))
    (failsAt : Option (Nat × E)) : St × Option E :=
  let snapshot := stored0
  let draft0 : DraftAndStore St := { draft := snapshot, stored := stored0 }
  match failsAt with
  | some je =>
      let _mid := (mutations.take je.1).foldl (fun d f => f d) draft0
      (snapshot, some je.2)
  | none =>
      let fin := mutations.foldl (fun d f => f d) draft0
      (fin.draft, none)

/-- The log–history divergence invariant (spec sections 3 and 8): for every
position with a history, the current version index is in range and the
current version's event deep-equals the event stored in the log at that
position.  (`0 ≤ currentVersionIndex` holds by the `Nat` representation; see
the `EventHistory` doc comment.) -/
def HistoryInv (s : GameState) : Prop :=
  ∀ k : Int, ∀ h : EventHistory, histGet s.eventHistory k = some h →
    h.currentVersionIndex < h.entries.length ∧
    ∃ entry, h.entries[h.currentVersionIndex]? = some entry ∧
      arrGet s.events k = some entry.event

/-- The non-emptiness invariant (spec section 8): every existing history has
at least one entry. -/
def EntriesNonempty (s : GameState) : Prop :=
  ∀ k : Int, ∀ h : EventHistory, histGet s.eventHistory k = some h →
    1 ≤ h.entries.length

/-- The history produced by the append step of `addEventHistoryVersion`:
the new entry is pushed and the current version index becomes the new last
index. -/
def appendedHistory (h0 : EventHistory) (ev : Event) (t : VersionType)
    (now : Nat) : EventHistory :=
  let entries := h0.entries ++ [{ event := ev, timestamp := now, type := t }]
  { entries := entries, currentVersionIndex := entries.length - 1 }

/-! Concrete states used by the witness theorems. -/

/-- Placeholder values for the unrelated state fields. -/
def wOther : OtherState := { apiUrl := "http://localhost:8080/v1/", view := "chat", actions := [] }

/-- A sample action event. -/
def wE0 : Event := Event.action "go north"

/-- A sample narration event. -/
def wE1 : Event := Event.narration "You head east."

/-- A sample history entry around an event. -/
def wEnt (e : Event) (t : Nat) : EventHistoryEntry :=
  { event := e, timestamp := t, type := VersionType.edit }

/-- A one-entry history holding `wE0`. -/
def wHist1 : EventHistory := { entries := [wEnt wE0 0], currentVersionIndex := 0 }

/-- A three-entry history whose current version (index 1) holds `wE1`. -/
def wHist3 : EventHistory :=
  { entries := [wEnt wE0 0, wEnt wE1 1, wEnt wE0 2], currentVersionIndex := 1 }

/-- A twelve-entry history, for the pagination examples. -/
def wHist12 : EventHistory :=
  { entries := (List.range 12).map (fun t => wEnt wE0 t), currentVersionIndex := 0 }

/-- A state satisfying the divergence invariant: one event, one matching
one-entry history at position 0. -/
def wStInv : GameState :=
  { events := [wE0], eventHistory := [(0, wHist1)], historyPagination := none, other := wOther }

/-- A five-event state with histories at exactly the positions 1, 2 and 4. -/
def wStDel : GameState :=
  { events := [wE0, wE0, wE1, wE0, wE1], eventHistory := [(1, wHist1), (2, wHist1), (4, wHist1)],
    historyPagination := none, other := wOther }

/-- A state with a three-entry history (current version 1) at position 0. -/
def wStPtr : GameState :=
  { events := [wE1], eventHistory := [(0, wHist3)], historyPagination := none, other := wOther }

/-- A state with a twelve-entry history at position 0. -/
def wStPage : GameState :=
  { events := [wE0], eventHistory := [(0, wHist12)], historyPagination := none, other := wOther }

/-- A one-event state with an empty history store. -/
def wStNoHist : GameState :=
  { events := [wE0], eventHistory := [], historyPagination := none, other := wOther }

/-! Lemmas about the history-store primitives. -/

/-- Reading from an empty store. -/
theorem histGet_nil (k : Int) : histGet [] k = none := rfl

/-- A left-biased `Option.or` with a present left value. -/
theorem some_or_left {α : Type} (a : α) (o : Option α) : (some a).or o = some a := rfl

/-- Reading from a cons cell: first match wins. -/
theorem histGet_cons (e : Int × EventHistory) (m : HistoryStore) (k : Int) :
    histGet (e :: m) k = if e.1 = k then some e.2 else histGet m k := by
  by_cases h : e.1 = k <;> simp [histGet, List.find?_cons, h]

/-- Reading from a concatenation: the left part wins when it has the key. -/
theorem histGet_append (m₁ m₂ : HistoryStore) (j : Int) :
    histGet (m₁ ++ m₂) j = (histGet m₁ j).or (histGet m₂ j) := by
  induction m₁ with
  | nil => simp [histGet]
  | cons e m ih => by_cases h : e.1 = j <;> simp [histGet_cons, h, ih]

/-- The `any` test of `histSet` agrees with `histGet` returning a value. -/
theorem any_key_iff_isSome (m : HistoryStore) (k : Int) :
    m.any (fun e => e.1 == k) = true ↔ (histGet m k).isSome := by
  induction m with
  | nil => simp [histGet]
  | cons e m ih => by_cases h : e.1 = k <;> simp [histGet_cons, h, ih]

/-- Replacing the pair with key `k` in place only affects reads of `k`. -/
theorem histGet_map_replace (m : HistoryStore) (k j : Int) (v : EventHistory) :
    histGet (m.map (fun e => if e.1 == k then (k, v) else e)) j =
      if j = k then (histGet m k).map (fun _ => v) else histGet m j := by
  induction m with
  | nil => by_cases h : j = k <;> simp [histGet, h]
  | cons e m ih =>
      by_cases hek : e.1 = k <;> by_cases hjk : j = k <;> by_cases hej : e.1 = j <;>
        simp_all [histGet_cons]

/-- The JS-object write law: writing key `k` changes exactly the read of `k`. -/
theorem histGet_histSet (m : HistoryStore) (k j : Int) (v : EventHistory) :
    histGet (histSet m k v) j = if j = k then some v else histGet m j := by
  unfold histSet
  by_cases hany : m.any (fun e => e.1 == k) = true
  · rw [if_pos hany, histGet_map_replace]
    by_cases hjk : j = k
    · subst hjk
      obtain ⟨w, hw⟩ := Option.isSome_iff_exists.mp ((any_key_iff_isSome m j).mp hany)
      simp [hw]
    · simp [hjk]
  · rw [if_neg hany, histGet_append]
    have hnone : histGet m k = none := by
      cases hm : histGet m k with
      | none => rfl
      | some w => exact absurd ((any_key_iff_isSome m k).mpr (by simp [hm])) hany
    have hsingle : ∀ i : Int, histGet [(k, v)] i = if k = i then some v else none := by
      intro i
      rw [histGet_cons]
      simp [histGet]
    by_cases hjk : j = k
    · subst hjk
      rw [hnone, hsingle j, Option.none_or]
    · rw [hsingle j, if_neg (by omega : ¬k = j), Option.or_none, if_neg hjk]

/-- The JS-object delete law. -/
theorem histGet_histErase (m : HistoryStore) (k j : Int) :
    histGet (histErase m k) j = if j = k then none else histGet m j := by
  induction m with
  | nil => simp [histGet, histErase]
  | cons e m ih =>
      by_cases hek : e.1 = k <;> by_cases hjk : j = k <;> by_cases hej : e.1 = j <;>
        simp_all [histErase, List.filter_cons, histGet_cons]

/-- Unfolding one step of the re-key fold: the loop body only appends. -/
theorem rekey_foldl_acc (m : HistoryStore) (p : Int) (acc : HistoryStore) :
    m.foldl (rekeyStep p) acc = acc ++ m.foldl (rekeyStep p) [] := by
  induction m generalizing acc with
  | nil => simp
  | cons e m ih =>
      simp only [List.foldl_cons]
      rw [ih, ih (rekeyStep p [] e)]
      unfold rekeyStep
      split_ifs <;> simp

/-- The observable effect of the re-key loop: position `j` now holds what
position `j` held before when `j` is below the deleted index, and what
position `j + 1` held otherwise (the deleted index itself is skipped). -/
theorem histGet_rekey (m : HistoryStore) (p j : Int) :
    histGet (rekeyAfterDelete m p) j =
      if j < p then histGet m j else histGet m (j + 1) := by
  unfold rekeyAfterDelete
  induction m with
  | nil => split <;> simp [histGet]
  | cons e m ih =>
      simp only [List.foldl_cons]
      rw [rekey_foldl_acc, histGet_append]
      have hstep : rekeyStep p [] e =
          if p < e.1 then [(e.1 - 1, e.2)] else if e.1 < p then [e] else [] := by
        unfold rekeyStep
        split_ifs <;> simp
      have hsingle : ∀ (w : Int × EventHistory) (i : Int),
          histGet [w] i = if w.1 = i then some w.2 else none := by
        intro w i
        rw [histGet_cons]
        simp [histGet]
      rw [hstep, ih]
      by_cases h1 : p < e.1
      · rw [if_pos h1, hsingle]
        by_cases hj : j < p
        · rw [if_neg (by omega : ¬(e.1 - 1, e.2).1 = j), Option.none_or, if_pos hj, if_pos hj,
            histGet_cons, if_neg (by omega : ¬e.1 = j)]
        · by_cases heq : e.1 - 1 = j
          · rw [if_pos (by exact heq), some_or_left, if_neg hj, histGet_cons,
              if_pos (by omega : e.1 = j + 1)]
          · rw [if_neg (by exact heq), Option.none_or, if_neg hj, if_neg hj,
              histGet_cons, if_neg (by omega : ¬e.1 = j + 1)]
      · rw [if_neg h1]
        by_cases h2 : e.1 < p
        · rw [if_pos h2, hsingle]
          by_cases hj : j < p
          · by_cases hej : e.1 = j
            · rw [if_pos (by exact hej), some_or_left, if_pos hj,
                histGet_cons, if_pos hej]
            · rw [if_neg (by exact hej), Option.none_or, if_pos hj, if_pos hj,
                histGet_cons, if_neg hej]
          · rw [if_neg (by omega : ¬e.1 = j), Option.none_or, if_neg hj, if_neg hj,
              histGet_cons, if_neg (by omega : ¬e.1 = j + 1)]
        · rw [if_neg h2]
          have hep : e.1 = p := by omega
          by_cases hj : j < p
          · rw [histGet_nil, Option.none_or, if_pos hj, if_pos hj, histGet_cons,
              if_neg (by omega : ¬e.1 = j)]
          · rw [histGet_nil, Option.none_or, if_neg hj, if_neg hj, histGet_cons,
              if_neg (by omega : ¬e.1 = j + 1)]

/-! Lemmas about the event-log primitives. -/

/-- Unfolding a successful JS array read. -/
theorem arrGet_eq_some_iff {l : List Event} {i : Int} {a : Event} :
    arrGet l i = some a ↔ 0 ≤ i ∧ l[i.toNat]? = some a := by
  unfold arrGet
  split <;> simp_all

/-- A successful JS array read is in range. -/
theorem arrGet_lt_length {l : List Event} {i : Int} {a : Event}
    (h : arrGet l i = some a) : i.toNat < l.length := by
  obtain ⟨-, h2⟩ := arrGet_eq_some_iff.mp h
  exact (List.getElem?_eq_some.mp h2).1

/-- Writing an array element preserves the length. -/
theorem length_arrSet (l : List Event) (i : Int) (x : Event) :
    (arrSet l i x).length = l.length := by
  unfold arrSet
  split <;> simp

/-- Reading back an in-range write. -/
theorem arrGet_arrSet_self {l : List Event} {i : Int} {x : Event}
    (h0 : 0 ≤ i) (h1 : i.toNat < l.length) : arrGet (arrSet l i x) i = some x := by
  unfold arrSet arrGet
  simp [h0, List.getElem?_set_self h1]

/-- A write at one index does not change reads elsewhere. -/
theorem arrGet_arrSet_ne {l : List Event} {i j : Int} {x : Event} (h : j ≠ i) :
    arrGet (arrSet l i x) j = arrGet l j := by
  unfold arrSet arrGet
  by_cases h0 : 0 ≤ i
  · by_cases h1 : 0 ≤ j
    · rw [if_pos h0, if_pos h1, if_pos h1, List.getElem?_set_ne (by omega : i.toNat ≠ j.toNat)]
    · simp [h0, h1]
  · simp [h0]

/-! Characterization of the shared seed step. -/

/-- The seed step does nothing when a history already exists. -/
theorem seedHistory_of_some {s : GameState} {i : Int} {w : EventHistory} (now : Nat)
    (h : histGet s.eventHistory i = some w) : seedHistory i now s = s := by
  simp [seedHistory, h]

/-- The seed step does nothing when no event exists at the position. -/
theorem seedHistory_of_no_event {s : GameState} {i : Int} (now : Nat)
    (h : arrGet s.events i = none) : seedHistory i now s = s := by
  unfold seedHistory
  split
  · rw [h]
  · rfl

/-- The seed step creates the one-entry history when the position holds an
event and has no history yet. -/
theorem seedHistory_creates {s : GameState} {i : Int} {e : Event} (now : Nat)
    (h : histGet s.eventHistory i = none) (he : arrGet s.events i = some e) :
    seedHistory i now s =
      { s with eventHistory := histSet s.eventHistory i (seededHistory e now) } := by
  simp [seedHistory, h, he]

/-- The seed step touches the history store only. -/
theorem seedHistory_frame (i : Int) (now : Nat) (s : GameState) :
    (seedHistory i now s).events = s.events ∧
    (seedHistory i now s).historyPagination = s.historyPagination ∧
    (seedHistory i now s).other = s.other := by
  unfold seedHistory
  split
  · split <;> exact ⟨rfl, rfl, rfl⟩
  · exact ⟨rfl, rfl, rfl⟩

/-- The seed step does not change histories at other positions. -/
theorem histGet_seedHistory_ne {i k : Int} (now : Nat) (s : GameState) (h : k ≠ i) :
    histGet (seedHistory i now s).eventHistory k = histGet s.eventHistory k := by
  unfold seedHistory
  split
  · split
    · simp [histGet_histSet, h]
    · rfl
  · rfl

/-- The seed step preserves the divergence invariant. -/
theorem historyInv_seedHistory {s : GameState} (i : Int) (now : Nat)
    (hs : HistoryInv s) : HistoryInv (seedHistory i now s) := by
  cases hh : histGet s.eventHistory i with
  | some w => rw [seedHistory_of_some now hh]; exact hs
  | none =>
      cases he : arrGet s.events i with
      | none => rw [seedHistory_of_no_event now he]; exact hs
      | some e =>
          rw [seedHistory_creates now hh he]
          intro k h hk
          simp only [histGet_histSet] at hk
          by_cases hki : k = i
          · subst hki
            rw [if_pos rfl] at hk
            have hh2 := Option.some.inj hk
            subst hh2
            refine ⟨by simp [seededHistory], seedEntry e now, by simp [seededHistory], ?_⟩
            simpa using he
          · rw [if_neg hki] at hk
            exact hs k h hk

/-- The seed step preserves non-emptiness of all histories. -/
theorem entriesNonempty_seedHistory {s : GameState} (i : Int) (now : Nat)
    (hs : EntriesNonempty s) : EntriesNonempty (seedHistory i now s) := by
  cases hh : histGet s.eventHistory i with
  | some w => rw [seedHistory_of_some now hh]; exact hs
  | none =>
      cases he : arrGet s.events i with
      | none => rw [seedHistory_of_no_event now he]; exact hs
      | some e =>
          rw [seedHistory_creates now hh he]
          intro k h hk
          simp only [histGet_histSet] at hk
          by_cases hki : k = i
          · subst hki
            rw [if_pos rfl] at hk
            have hh2 := Option.some.inj hk
            subst hh2
            simp [seededHistory]
          · rw [if_neg hki] at hk
            exact hs k h hk

/-! Preservation of the divergence invariant by each operation. -/

/-- `ensureEventHistory` preserves the divergence invariant. -/
theorem historyInv_ensure {s : GameState} (i : Int) (now : Nat)
    (hs : HistoryInv s) : HistoryInv (ensureEventHistory i now s) := by
  unfold ensureEventHistory
  split
  · exact hs
  · exact historyInv_seedHistory i now hs

/-- `addEventHistoryVersion` preserves the divergence invariant. -/
theorem historyInv_addVersion {s : GameState} (i : Int) (ev : Event)
    (t : VersionType) (now : Nat) (hs : HistoryInv s) :
    HistoryInv (addEventHistoryVersion i ev t now s) := by
  unfold addEventHistoryVersion
  split
  · exact hs
  · have hs1 : HistoryInv (seedHistory i now s) := historyInv_seedHistory i now hs
    cases hh : histGet (seedHistory i now s).eventHistory i with
    | none => simpa [hh] using hs1
    | some history =>
        simp only [hh]
        intro k h hk
        simp only [histGet_histSet] at hk
        obtain ⟨hlt1, entry1, hent1, harr1⟩ := hs1 i history hh
        have hi0 : 0 ≤ i := (arrGet_eq_some_iff.mp harr1).1
        have hirange : i.toNat < (seedHistory i now s).events.length := arrGet_lt_length harr1
        by_cases hki : k = i
        · subst hki
          rw [if_pos rfl] at hk
          have hh2 := Option.some.inj hk
          subst hh2
          refine ⟨by simp, ?_⟩
          refine ⟨{ event := ev, timestamp := now, type := t }, ?_, ?_⟩
          · simp [List.getElem?_concat_length]
          · exact arrGet_arrSet_self hi0 hirange
        · rw [if_neg hki] at hk
          obtain ⟨hlt, entry, hent, harr⟩ := hs1 k h hk
          exact ⟨hlt, entry, hent, by rwa [arrGet_arrSet_ne hki]⟩

/-- `selectEventHistoryVersion` preserves the divergence invariant. -/
theorem historyInv_select {s : GameState} (i v : Int)
    (hs : HistoryInv s) : HistoryInv (selectEventHistoryVersion i v s) := by
  unfold selectEventHistoryVersion
  cases hh : histGet s.eventHistory i with
  | none => simpa [hh] using hs
  | some history =>
      simp only [hh]
      split
      · cases hent : history.entries[v.toNat]? with
        | none => simpa [hent] using hs
        | some entry =>
            simp only [hent]
            intro k h hk
            simp only [histGet_histSet] at hk
            obtain ⟨hlt1, entry1, hent1, harr1⟩ := hs i history hh
            have hi0 : 0 ≤ i := (arrGet_eq_some_iff.mp harr1).1
            have hirange : i.toNat < s.events.length := arrGet_lt_length harr1
            by_cases hki : k = i
            · subst hki
              rw [if_pos rfl] at hk
              have hh2 := Option.some.inj hk
              subst hh2
              refine ⟨(List.getElem?_eq_some.mp hent).1, entry, hent, ?_⟩
              exact arrGet_arrSet_self hi0 hirange
            · rw [if_neg hki] at hk
              obtain ⟨hlt, entry2, hent2, harr2⟩ := hs k h hk
              exact ⟨hlt, entry2, hent2, by rwa [arrGet_arrSet_ne hki]⟩
      · exact hs

/-- `deleteEventHistoryVersion` preserves the divergence invariant. -/
theorem historyInv_deleteVersion {s : GameState} (i v : Int)
    (hs : HistoryInv s) : HistoryInv (deleteEventHistoryVersion i v s) := by
  unfold deleteEventHistoryVersion
  cases hh : histGet s.eventHistory i with
  | none => simpa [hh] using hs
  | some history =>
      simp only [hh]
      split
      · exact hs
      · split
        · exact hs
        · rename_i hrange hlen
          have hv0 : 0 ≤ v := by omega
          have hvlen : v.toNat < history.entries.length := by omega
          have hlen2 : 2 ≤ history.entries.length := by omega
          obtain ⟨hlt1, entry1, hent1, harr1⟩ := hs i history hh
          have hi0 : 0 ≤ i := (arrGet_eq_some_iff.mp harr1).1
          have hirange : i.toNat < s.events.length := arrGet_lt_length harr1
          have herlen : (history.entries.eraseIdx v.toNat).length =
              history.entries.length - 1 := by
            rw [List.length_eraseIdx]
            simp [hvlen]
          split
          · rename_i hwas
            have hcur : max 0 (v.toNat - 1) < (history.entries.eraseIdx v.toNat).length := by
              omega
            rw [List.getElem?_eq_getElem hcur]
            intro k h hk
            simp only [histGet_histSet] at hk
            by_cases hki : k = i
            · subst hki
              rw [if_pos rfl] at hk
              have hh2 := Option.some.inj hk
              subst hh2
              exact ⟨hcur, (history.entries.eraseIdx v.toNat).get ⟨max 0 (v.toNat - 1), hcur⟩,
                by simp [List.getElem?_eq_getElem hcur], arrGet_arrSet_self hi0 hirange⟩
            · rw [if_neg hki] at hk
              obtain ⟨hlt, entry2, hent2, harr2⟩ := hs k h hk
              exact ⟨hlt, entry2, hent2, by rwa [arrGet_arrSet_ne hki]⟩
          · split
            · rename_i hnotcur hbefore
              intro k h hk
              simp only [histGet_histSet] at hk
              by_cases hki : k = i
              · subst hki
                rw [if_pos rfl] at hk
                have hh2 := Option.some.inj hk
                subst hh2
                refine ⟨by simp only; omega, entry1, ?_, harr1⟩
                simp only [List.getElem?_eraseIdx]
                rw [if_neg (by omega : ¬history.currentVersionIndex - 1 < v.toNat)]
                rw [(by omega : history.currentVersionIndex - 1 + 1 = history.currentVersionIndex)]
                exact hent1
              · rw [if_neg hki] at hk
                exact hs k h hk
            · rename_i hnotcur hnotbefore
              have hafter : history.currentVersionIndex < v.toNat := by omega
              intro k h hk
              simp only [histGet_histSet] at hk
              by_cases hki : k = i
              · subst hki
                rw [if_pos rfl] at hk
                have hh2 := Option.some.inj hk
                subst hh2
                refine ⟨by simp only; omega, entry1, ?_, harr1⟩
                simp only [List.getElem?_eraseIdx]
                rw [if_pos hafter]
                exact hent1
              · rw [if_neg hki] at hk
                exact hs k h hk

/-- `deleteEvent` preserves the divergence invariant. -/
theorem historyInv_deleteEvent {s : GameState} (i : Int)
    (hs : HistoryInv s) : HistoryInv (deleteEvent i s) := by
  unfold deleteEvent
  split
  · exact hs
  · rename_i hneg
    intro k h hk
    simp only [histGet_rekey, histGet_histErase] at hk
    by_cases hki : k < i
    · rw [if_pos hki, if_neg (by omega : ¬k = i)] at hk
      obtain ⟨hlt, entry, hent, harr⟩ := hs k h hk
      have hk0 : 0 ≤ k := (arrGet_eq_some_iff.mp harr).1
      refine ⟨hlt, entry, hent, ?_⟩
      show arrGet (s.events.eraseIdx i.toNat) k = some entry.event
      rw [arrGet_eq_some_iff]
      refine ⟨hk0, ?_⟩
      rw [List.getElem?_eraseIdx, if_pos (by omega : k.toNat < i.toNat)]
      exact (arrGet_eq_some_iff.mp harr).2
    · rw [if_neg hki, if_neg (by omega : ¬k + 1 = i)] at hk
      obtain ⟨hlt, entry, hent, harr⟩ := hs (k + 1) h hk
      have hk10 : 0 ≤ k + 1 := (arrGet_eq_some_iff.mp harr).1
      refine ⟨hlt, entry, hent, ?_⟩
      show arrGet (s.events.eraseIdx i.toNat) k = some entry.event
      rw [arrGet_eq_some_iff]
      refine ⟨by omega, ?_⟩
      rw [List.getElem?_eraseIdx, if_neg (by omega : ¬k.toNat < i.toNat)]
      rw [(by omega : k.toNat + 1 = (k + 1).toNat)]
      exact (arrGet_eq_some_iff.mp harr).2

/-! Preservation of history non-emptiness by each operation. -/

/-- `ensureEventHistory` preserves non-emptiness of all histories. -/
theorem entriesNonempty_ensure {s : GameState} (i : Int) (now : Nat)
    (hs : EntriesNonempty s) : EntriesNonempty (ensureEventHistory i now s) := by
  unfold ensureEventHistory
  split
  · exact hs
  · exact entriesNonempty_seedHistory i now hs

/-- `addEventHistoryVersion` preserves non-emptiness of all histories. -/
theorem entriesNonempty_addVersion {s : GameState} (i : Int) (ev : Event)
    (t : VersionType) (now : Nat) (hs : EntriesNonempty s) :
    EntriesNonempty (addEventHistoryVersion i ev t now s) := by
  unfold addEventHistoryVersion
  split
  · exact hs
  · have hs1 := entriesNonempty_seedHistory i now hs
    cases hh : histGet (seedHistory i now s).eventHistory i with
    | none => simpa [hh] using hs1
    | some history =>
        simp only [hh]
        intro k h hk
        simp only [histGet_histSet] at hk
        by_cases hki : k = i
        · subst hki
          rw [if_pos rfl] at hk
          have hh2 := Option.some.inj hk
          subst hh2
          simp
        · rw [if_neg hki] at hk
          exact hs1 k h hk

/-- `selectEventHistoryVersion` preserves non-emptiness of all histories. -/
theorem entriesNonempty_select {s : GameState} (i v : Int)
    (hs : EntriesNonempty s) : EntriesNonempty (selectEventHistoryVersion i v s) := by
  unfold selectEventHistoryVersion
  cases hh : histGet s.eventHistory i with
  | none => simpa [hh] using hs
  | some history =>
      simp only [hh]
      split
      · cases hent : history.entries[v.toNat]? with
        | none => simpa [hent] using hs
        | some entry =>
            simp only [hent]
            intro k h hk
            simp only [histGet_histSet] at hk
            by_cases hki : k = i
            · subst hki
              rw [if_pos rfl] at hk
              have hh2 := Option.some.inj hk
              subst hh2
              have hlen := (List.getElem?_eq_some.mp hent).1
              simp only
              omega
            · rw [if_neg hki] at hk
              exact hs k h hk
      · exact hs

/-- `deleteEventHistoryVersion` preserves non-emptiness of all histories. -/
theorem entriesNonempty_deleteVersion {s : GameState} (i v : Int)
    (hs : EntriesNonempty s) : EntriesNonempty (deleteEventHistoryVersion i v s) := by
  unfold deleteEventHistoryVersion
  cases hh : histGet s.eventHistory i with
  | none => simpa [hh] using hs
  | some history =>
      simp only [hh]
      split
      · exact hs
      · split
        · exact hs
        · rename_i hrange hlen
          have herlen : (history.entries.eraseIdx v.toNat).length =
              history.entries.length - 1 := by
            rw [List.length_eraseIdx]
            simp [(by omega : v.toNat < history.entries.length)]
          split
          · split
            · intro k h hk
              simp only [histGet_histSet] at hk
              by_cases hki : k = i
              · subst hki
                rw [if_pos rfl] at hk
                have hh2 := Option.some.inj hk
                subst hh2
                simp only
                omega
              · rw [if_neg hki] at hk
                exact hs k h hk
            · intro k h hk
              simp only [histGet_histSet] at hk
              by_cases hki : k = i
              · subst hki
                rw [if_pos rfl] at hk
                have hh2 := Option.some.inj hk
                subst hh2
                simp only
                omega
              · rw [if_neg hki] at hk
                exact hs k h hk
          · split
            · intro k h hk
              simp only [histGet_histSet] at hk
              by_cases hki : k = i
              · subst hki
                rw [if_pos rfl] at hk
                have hh2 := Option.some.inj hk
                subst hh2
                simp only
                omega
              · rw [if_neg hki] at hk
                exact hs k h hk
            · intro k h hk
              simp only [histGet_histSet] at hk
              by_cases hki : k = i
              · subst hki
                rw [if_pos rfl] at hk
                have hh2 := Option.some.inj hk
                subst hh2
                simp only
                omega
              · rw [if_neg hki] at hk
                exact hs k h hk

/-- `deleteEvent` preserves non-emptiness of all histories. -/
theorem entriesNonempty_deleteEvent {s : GameState} (i : Int)
    (hs : EntriesNonempty s) : EntriesNonempty (deleteEvent i s) := by
  unfold deleteEvent
  split
  · exact hs
  · intro k h hk
    simp only [histGet_rekey, histGet_histErase] at hk
    by_cases hki : k < i
    · rw [if_pos hki, if_neg (by omega : ¬k = i)] at hk
      exact hs k h hk
    · rw [if_neg hki, if_neg (by omega : ¬k + 1 = i)] at hk
      exact hs (k + 1) h hk

/-! Facts about the concrete witness states. -/

/-- The concrete state `wStInv` satisfies the divergence invariant. -/
theorem wStInv_inv : HistoryInv wStInv := by
  intro k h hk
  simp only [wStInv, histGet_cons, histGet_nil] at hk
  by_cases hk0 : (0 : Int) = k
  · rw [if_pos hk0] at hk
    have hh2 := Option.some.inj hk
    subst hh2
    subst hk0
    exact ⟨by decide, wEnt wE0 0, by decide, by decide⟩
  · rw [if_neg hk0] at hk
    cases hk

/-- The concrete state `wStInv` has only non-empty histories. -/
theorem wStInv_nonempty : EntriesNonempty wStInv := by
  intro k h hk
  simp only [wStInv, histGet_cons, histGet_nil] at hk
  by_cases hk0 : (0 : Int) = k
  · rw [if_pos hk0] at hk
    have hh2 := Option.some.inj hk
    subst hh2
    decide
  · rw [if_neg hk0] at hk
    cases hk

/-! The claims. -/

/-- C1: for every position with an entry in the history store, after any of
`ensureEventHistory`, `addEventHistoryVersion`, `selectEventHistoryVersion`,
`deleteEventHistoryVersion` or `deleteEvent` completes on a state satisfying
the log–history invariant, the history still satisfies
`0 ≤ currentVersionIndex < entries.length` and
`entries[currentVersionIndex].event` equals the event stored in the event log
at that position — the log and the active version never diverge. -/
theorem claim_C1_ops_preserve_historyInv (s : GameState) (i v : Int)
    (ev : Event) (t : VersionType) (now : Nat) (hs : HistoryInv s) :
    HistoryInv (ensureEventHistory i now s) ∧
    HistoryInv (addEventHistoryVersion i ev t now s) ∧
    HistoryInv (selectEventHistoryVersion i v s) ∧
    HistoryInv (deleteEventHistoryVersion i v s) ∧
    HistoryInv (deleteEvent i s) :=
  ⟨historyInv_ensure i now hs, historyInv_addVersion i ev t now hs,
   historyInv_select i v hs, historyInv_deleteVersion i v hs,
   historyInv_deleteEvent i hs⟩

/-- Witness for C1: the invariant hypothesis is discharged at the concrete
state `wStInv`. -/
theorem claim_C1_witness :
    HistoryInv (ensureEventHistory 0 5 wStInv) ∧
    HistoryInv (addEventHistoryVersion 0 wE1 VersionType.edit 5 wStInv) ∧
    HistoryInv (selectEventHistoryVersion 0 0 wStInv) ∧
    HistoryInv (deleteEventHistoryVersion 0 0 wStInv) ∧
    HistoryInv (deleteEvent 0 wStInv) :=
  claim_C1_ops_preserve_historyInv wStInv 0 0 wE1 VersionType.edit 5 wStInv_inv

/-- C4: every operation keeps every existing history non-empty, and
`deleteEventHistoryVersion` applied at a position whose history has exactly
one entry is a no-op: the complete state — entries, current version index and
event log included — is unchanged. -/
theorem claim_C4_nonempty_and_singleton_noop (s : GameState) (i v : Int)
    (ev : Event) (t : VersionType) (now : Nat) :
    (EntriesNonempty s →
      EntriesNonempty (ensureEventHistory i now s) ∧
      EntriesNonempty (addEventHistoryVersion i ev t now s) ∧
      EntriesNonempty (selectEventHistoryVersion i v s) ∧
      EntriesNonempty (deleteEventHistoryVersion i v s) ∧
      EntriesNonempty (deleteEvent i s)) ∧
    (∀ hist : EventHistory, histGet s.eventHistory i = some hist →
      hist.entries.length = 1 → deleteEventHistoryVersion i v s = s) := by
  constructor
  · intro hs
    exact ⟨entriesNonempty_ensure i now hs, entriesNonempty_addVersion i ev t now hs,
      entriesNonempty_select i v hs, entriesNonempty_deleteVersion i v hs,
      entriesNonempty_deleteEvent i hs⟩
  · intro hist hh h1
    unfold deleteEventHistoryVersion
    simp only [hh]
    by_cases hv : v < 0 ∨ (hist.entries.length : Int) ≤ v
    · rw [if_pos hv]
    · rw [if_neg hv, if_pos (by omega : hist.entries.length ≤ 1)]

/-- Witness for C4: both hypotheses are discharged at the concrete state
`wStInv`, whose single history has exactly one entry. -/
theorem claim_C4_witness :
    (EntriesNonempty (ensureEventHistory 0 5 wStInv) ∧
     EntriesNonempty (addEventHistoryVersion 0 wE1 VersionType.edit 5 wStInv) ∧
     EntriesNonempty (selectEventHistoryVersion 0 0 wStInv) ∧
     EntriesNonempty (deleteEventHistoryVersion 0 0 wStInv) ∧
     EntriesNonempty (deleteEvent 0 wStInv)) ∧
    deleteEventHistoryVersion 0 0 wStInv = wStInv :=
  ⟨(claim_C4_nonempty_and_singleton_noop wStInv 0 0 wE1 VersionType.edit 5).1 wStInv_nonempty,
   (claim_C4_nonempty_and_singleton_noop wStInv 0 0 wE1 VersionType.edit 5).2 wHist1
     (by decide) (by decide)⟩

/-- The history store of `wStDel` has keys exactly at 1, 2 and 4. -/
theorem wStDel_keys :
    ∀ k : Int, (histGet wStDel.eventHistory k).isSome ↔ k = 1 ∨ k = 2 ∨ k = 4 := by
  intro k
  simp only [wStDel, histGet_cons, histGet_nil]
  by_cases h1 : (1 : Int) = k
  · rw [if_pos h1]
    simp
    omega
  · rw [if_neg h1]
    by_cases h2 : (2 : Int) = k
    · rw [if_pos h2]
      simp
      omega
    · rw [if_neg h2]
      by_cases h4 : (4 : Int) = k
      · rw [if_pos h4]
        simp
        omega
      · rw [if_neg h4]
        simp
        omega

/-- C2: `deleteEvent p` removes the event at `p` with splice semantics (the
log length decreases by exactly one when an event existed at `p` and every
later event shifts down one position), discards the history keyed at `p`,
re-keys every history key above `p` down by one, and keeps every key below
`p` unchanged; in particular, a store with histories at exactly positions
1, 2, 4 has histories at exactly positions 1, 3 after `deleteEvent 2`. -/
theorem claim_C2_deleteEvent_splice_rekey :
    (∀ (s : GameState) (p : Int), 0 ≤ p →
      (deleteEvent p s).events = s.events.eraseIdx p.toNat ∧
      (p.toNat < s.events.length →
        (deleteEvent p s).events.length = s.events.length - 1) ∧
      (∀ j : Nat, j < p.toNat → (deleteEvent p s).events[j]? = s.events[j]?) ∧
      (∀ j : Nat, p.toNat ≤ j → (deleteEvent p s).events[j]? = s.events[j + 1]?) ∧
      (∀ k : Int, k < p →
        histGet (deleteEvent p s).eventHistory k = histGet s.eventHistory k) ∧
      (∀ k : Int, p < k →
        histGet (deleteEvent p s).eventHistory (k - 1) = histGet s.eventHistory k)) ∧
    (∀ s : GameState,
      (∀ k : Int, (histGet s.eventHistory k).isSome ↔ k = 1 ∨ k = 2 ∨ k = 4) →
      ∀ k : Int,
        (histGet (deleteEvent 2 s).eventHistory k).isSome ↔ k = 1 ∨ k = 3) := by
  constructor
  · intro s p hp
    have hdef : deleteEvent p s =
        { s with
          events := s.events.eraseIdx p.toNat,
          eventHistory := rekeyAfterDelete (histErase s.eventHistory p) p } := by
      unfold deleteEvent
      rw [if_neg (by omega)]
    rw [hdef]
    refine ⟨rfl, ?_, ?_, ?_, ?_, ?_⟩
    · intro hlt
      simp [List.length_eraseIdx, hlt]
    · intro j hj
      simp [List.getElem?_eraseIdx, hj]
    · intro j hj
      rw [List.getElem?_eraseIdx, if_neg (by omega)]
    · intro k hk
      rw [histGet_rekey, if_pos hk, histGet_histErase, if_neg (by omega : ¬k = p)]
    · intro k hk
      rw [histGet_rekey, if_neg (by omega : ¬k - 1 < p),
        (by omega : k - 1 + 1 = k), histGet_histErase, if_neg (by omega : ¬k = p)]
  · intro s hkeys k
    have hif : (deleteEvent 2 s).eventHistory =
        rekeyAfterDelete (histErase s.eventHistory 2) 2 := by
      unfold deleteEvent
      rw [if_neg (by omega)]
    rw [hif, histGet_rekey]
    by_cases hk2 : k < 2
    · rw [if_pos hk2, histGet_histErase, if_neg (by omega : ¬k = 2), hkeys k]
      omega
    · rw [if_neg hk2, histGet_histErase, if_neg (by omega : ¬k + 1 = 2), hkeys (k + 1)]
      omega

/-- Witness for C2: evaluated at the concrete state `wStDel`, with histories
at exactly positions 1, 2 and 4. -/
theorem claim_C2_witness :
    (deleteEvent 2 wStDel).events = wStDel.events.eraseIdx 2 ∧
    ((histGet (deleteEvent 2 wStDel).eventHistory 1).isSome ↔ (1:Int) = 1 ∨ (1:Int) = 3) ∧
    ((histGet (deleteEvent 2 wStDel).eventHistory 2).isSome ↔ (2:Int) = 1 ∨ (2:Int) = 3) ∧
    ((histGet (deleteEvent 2 wStDel).eventHistory 3).isSome ↔ (3:Int) = 1 ∨ (3:Int) = 3) ∧
    ((histGet (deleteEvent 2 wStDel).eventHistory 4).isSome ↔ (4:Int) = 1 ∨ (4:Int) = 3) :=
  ⟨(claim_C2_deleteEvent_splice_rekey.1 wStDel 2 (by decide)).1,
   claim_C2_deleteEvent_splice_rekey.2 wStDel wStDel_keys 1,
   claim_C2_deleteEvent_splice_rekey.2 wStDel wStDel_keys 2,
   claim_C2_deleteEvent_splice_rekey.2 wStDel wStDel_keys 3,
   claim_C2_deleteEvent_splice_rekey.2 wStDel wStDel_keys 4⟩

/-- C5: when the updater of a `setAsync` step throws partway through, the
stored state afterwards equals the pre-step snapshot — whatever prefix of
the step's mutations had been applied to the draft or written to the store —
and the error is re-thrown to the caller; the step is never partially
applied. -/
theorem claim_C5_setAsync_rollback (stored0 : GameState)
    (mutations : List (DraftAndStore GameState → DraftAndStore GameState))
    (j : Nat) (err : String) :
    runSetAsync stored0 mutations (some (j, err)) = (stored0, some err) := rfl

/-- C10: at a non-negative position with no history and no event in the log,
`addEventHistoryVersion` is a complete no-op: the whole state is unchanged. -/
theorem claim_C10_addVersion_noop (s : GameState) (p : Int) (ev : Event)
    (t : VersionType) (now : Nat) (hp : 0 ≤ p)
    (hh : histGet s.eventHistory p = none) (he : arrGet s.events p = none) :
    addEventHistoryVersion p ev t now s = s := by
  unfold addEventHistoryVersion
  rw [if_neg (by omega)]
  rw [seedHistory_of_no_event now he]
  simp only [hh]

/-- Witness for C10: position 5 of the one-event state `wStNoHist` has
neither a history nor an event. -/
theorem claim_C10_witness : addEventHistoryVersion 5 wE1 VersionType.edit 7 wStNoHist = wStNoHist :=
  claim_C10_addVersion_noop wStNoHist 5 wE1 VersionType.edit 7 (by decide) rfl (by decide)

/-- C3: the pointer-adjustment rules of `deleteEventHistoryVersion` on a
history with more than one entry and an in-range version index: deleting the
current version moves the pointer to `max 0 (versionIndex - 1)` and rewrites
the log at the position to the new current version's event; deleting a
version strictly before the current one decrements the pointer and leaves
the log untouched; deleting a version strictly after the current one leaves
the pointer (and the log) unchanged.  In every case the deleted entry is
removed (`List.eraseIdx`). -/
theorem claim_C3_deleteVersion_pointer_rules (s : GameState) (p : Int)
    (hist : EventHistory) (v : Nat)
    (hh : histGet s.eventHistory p = some hist)
    (hlen : 1 < hist.entries.length) (hv : v < hist.entries.length)
    (hp : 0 ≤ p) (hpr : p.toNat < s.events.length) :
    (hist.currentVersionIndex = v →
      ∃ h2, histGet (deleteEventHistoryVersion p (v : Int) s).eventHistory p = some h2 ∧
        h2.entries = hist.entries.eraseIdx v ∧
        h2.currentVersionIndex = max 0 (v - 1) ∧
        ∃ entry, h2.entries[h2.currentVersionIndex]? = some entry ∧
          arrGet (deleteEventHistoryVersion p (v : Int) s).events p = some entry.event) ∧
    (v < hist.currentVersionIndex →
      ∃ h2, histGet (deleteEventHistoryVersion p (v : Int) s).eventHistory p = some h2 ∧
        h2.entries = hist.entries.eraseIdx v ∧
        h2.currentVersionIndex = hist.currentVersionIndex - 1 ∧
        (deleteEventHistoryVersion p (v : Int) s).events = s.events) ∧
    (hist.currentVersionIndex < v →
      ∃ h2, histGet (deleteEventHistoryVersion p (v : Int) s).eventHistory p = some h2 ∧
        h2.entries = hist.entries.eraseIdx v ∧
        h2.currentVersionIndex = hist.currentVersionIndex ∧
        (deleteEventHistoryVersion p (v : Int) s).events = s.events) := by
  have herlen : (hist.entries.eraseIdx v).length = hist.entries.length - 1 := by
    rw [List.length_eraseIdx]
    simp [hv]
  unfold deleteEventHistoryVersion
  simp only [hh, Int.toNat_natCast]
  rw [if_neg (by omega : ¬((v : Int) < 0 ∨ (hist.entries.length : Int) ≤ (v : Int))),
    if_neg (by omega : ¬hist.entries.length ≤ 1)]
  refine ⟨?_, ?_, ?_⟩
  · intro hcv
    rw [if_pos hcv]
    have hcur : max 0 (v - 1) < (hist.entries.eraseIdx v).length := by omega
    rw [List.getElem?_eq_getElem hcur]
    refine ⟨⟨hist.entries.eraseIdx v, max 0 (v - 1)⟩, ?_, rfl, rfl, ?_⟩
    · simp [histGet_histSet]
    · exact ⟨_, List.getElem?_eq_getElem hcur, arrGet_arrSet_self hp hpr⟩
  · intro hbefore
    rw [if_neg (by omega : ¬hist.currentVersionIndex = v), if_pos hbefore]
    refine ⟨⟨hist.entries.eraseIdx v, hist.currentVersionIndex - 1⟩, ?_, rfl, rfl, rfl⟩
    simp [histGet_histSet]
  · intro hafter
    rw [if_neg (by omega : ¬hist.currentVersionIndex = v),
      if_neg (by omega : ¬v < hist.currentVersionIndex)]
    refine ⟨⟨hist.entries.eraseIdx v, hist.currentVersionIndex⟩, ?_, rfl, rfl, rfl⟩
    simp [histGet_histSet]

/-- Witness for C3: deleting the current version (index 1 of 3) at position 0
of the concrete state `wStPtr`. -/
theorem claim_C3_witness :
    ∃ h2, histGet (deleteEventHistoryVersion 0 (1 : Nat) wStPtr).eventHistory 0 = some h2 ∧
      h2.entries = wHist3.entries.eraseIdx 1 ∧
      h2.currentVersionIndex = max 0 (1 - 1) ∧
      ∃ entry, h2.entries[h2.currentVersionIndex]? = some entry ∧
        arrGet (deleteEventHistoryVersion 0 (1 : Nat) wStPtr).events 0 = some entry.event :=
  (claim_C3_deleteVersion_pointer_rules wStPtr 0 wHist3 1 (by decide) (by decide) (by decide)
    (by decide) (by decide)).1 (by decide)

/-- C6: every validation failure is a silent no-op.  For each history
operation the applicable bad inputs — a negative position, a missing
history, an out-of-range version index, and an attempt to delete the last
remaining version — leave the whole state unchanged (the operations are
total functions, so no exception is possible, and returning the state
unchanged is the absence of any mutation or observable error).  For
`selectEventHistoryVersion` and `deleteEventHistoryVersion` a negative
position is a no-op because the store never holds a negative key (every key
the code writes is a stringified non-negative index), which the
corresponding conjuncts assume explicitly. -/
theorem claim_C6_validation_noops (s : GameState) (p v : Int)
    (ev : Event) (t : VersionType) (now : Nat) :
    (p < 0 → ensureEventHistory p now s = s) ∧
    (arrGet s.events p = none → ensureEventHistory p now s = s) ∧
    (p < 0 → addEventHistoryVersion p ev t now s = s) ∧
    (histGet s.eventHistory p = none → arrGet s.events p = none →
      addEventHistoryVersion p ev t now s = s) ∧
    (histGet s.eventHistory p = none → selectEventHistoryVersion p v s = s) ∧
    (v < 0 → selectEventHistoryVersion p v s = s) ∧
    (∀ hist, histGet s.eventHistory p = some hist →
      (hist.entries.length : Int) ≤ v → selectEventHistoryVersion p v s = s) ∧
    ((∀ k : Int, k < 0 → histGet s.eventHistory k = none) → p < 0 →
      selectEventHistoryVersion p v s = s) ∧
    (histGet s.eventHistory p = none → deleteEventHistoryVersion p v s = s) ∧
    (v < 0 → deleteEventHistoryVersion p v s = s) ∧
    (∀ hist, histGet s.eventHistory p = some hist →
      (hist.entries.length : Int) ≤ v → deleteEventHistoryVersion p v s = s) ∧
    (∀ hist, histGet s.eventHistory p = some hist →
      hist.entries.length ≤ 1 → deleteEventHistoryVersion p v s = s) ∧
    ((∀ k : Int, k < 0 → histGet s.eventHistory k = none) → p < 0 →
      deleteEventHistoryVersion p v s = s) := by
  refine ⟨?_, ?_, ?_, ?_, ?_, ?_, ?_, ?_, ?_, ?_, ?_, ?_, ?_⟩
  · intro hneg
    unfold ensureEventHistory
    rw [if_pos hneg]
  · intro he
    unfold ensureEventHistory
    split
    · rfl
    · exact seedHistory_of_no_event now he
  · intro hneg
    unfold addEventHistoryVersion
    rw [if_pos hneg]
  · intro hh he
    unfold addEventHistoryVersion
    split
    · rfl
    · rw [seedHistory_of_no_event now he]
      simp only [hh]
  · intro hh
    unfold selectEventHistoryVersion
    simp only [hh]
  · intro hv
    unfold selectEventHistoryVersion
    cases hh : histGet s.eventHistory p with
    | none => rfl
    | some hist =>
        simp only [hh]
        rw [if_neg (by omega : ¬0 ≤ v)]
  · intro hist hh hv
    unfold selectEventHistoryVersion
    simp only [hh]
    split
    · rename_i hv0
      have hnone : hist.entries[v.toNat]? = none := by
        rw [List.getElem?_eq_none]
        omega
      simp only [hnone]
    · rfl
  · intro hwf hneg
    unfold selectEventHistoryVersion
    simp only [hwf p hneg]
  · intro hh
    unfold deleteEventHistoryVersion
    simp only [hh]
  · intro hv
    unfold deleteEventHistoryVersion
    cases hh : histGet s.eventHistory p with
    | none => rfl
    | some hist =>
        simp only [hh]
        rw [if_pos (by omega : v < 0 ∨ (hist.entries.length : Int) ≤ v)]
  · intro hist hh hv
    unfold deleteEventHistoryVersion
    simp only [hh]
    rw [if_pos (by omega : v < 0 ∨ (hist.entries.length : Int) ≤ v)]
  · intro hist hh h1
    unfold deleteEventHistoryVersion
    simp only [hh]
    by_cases hv : v < 0 ∨ (hist.entries.length : Int) ≤ v
    · rw [if_pos hv]
    · rw [if_neg hv, if_pos (by omega : hist.entries.length ≤ 1)]
  · intro hwf hneg
    unfold deleteEventHistoryVersion
    simp only [hwf p hneg]

/-- Witness for C6: each kind of invalid call evaluated at a concrete
state. -/
theorem claim_C6_witness :
    ensureEventHistory (-1) 0 wStNoHist = wStNoHist ∧
    ensureEventHistory 7 0 wStNoHist = wStNoHist ∧
    addEventHistoryVersion (-1) wE1 VersionType.edit 0 wStNoHist = wStNoHist ∧
    selectEventHistoryVersion 5 0 wStNoHist = wStNoHist ∧
    selectEventHistoryVersion 0 (-2) wStInv = wStInv ∧
    selectEventHistoryVersion 0 9 wStInv = wStInv ∧
    selectEventHistoryVersion (-4) 0 wStInv = wStInv ∧
    deleteEventHistoryVersion 3 0 wStInv = wStInv ∧
    deleteEventHistoryVersion 0 (-2) wStInv = wStInv ∧
    deleteEventHistoryVersion 0 9 wStInv = wStInv ∧
    deleteEventHistoryVersion 0 0 wStInv = wStInv ∧
    deleteEventHistoryVersion (-4) 0 wStInv = wStInv :=
  ⟨(claim_C6_validation_noops wStNoHist (-1) 0 wE1 VersionType.edit 0).1 (by decide),
   (claim_C6_validation_noops wStNoHist 7 0 wE1 VersionType.edit 0).2.1 (by decide),
   (claim_C6_validation_noops wStNoHist (-1) 0 wE1 VersionType.edit 0).2.2.1 (by decide),
   (claim_C6_validation_noops wStNoHist 5 0 wE1 VersionType.edit 0).2.2.2.2.1 rfl,
   (claim_C6_validation_noops wStInv 0 (-2) wE1 VersionType.edit 0).2.2.2.2.2.1 (by decide),
   (claim_C6_validation_noops wStInv 0 9 wE1 VersionType.edit 0).2.2.2.2.2.2.1 wHist1
     (by decide) (by decide),
   (claim_C6_validation_noops wStInv (-4) 0 wE1 VersionType.edit 0).2.2.2.2.2.2.2.1
     (fun k hk => by
       simp only [wStInv, histGet_cons, histGet_nil]
       rw [if_neg (by omega : ¬(0 : Int) = k)]) (by decide),
   (claim_C6_validation_noops wStInv 3 0 wE1 VersionType.edit 0).2.2.2.2.2.2.2.2.1 rfl,
   (claim_C6_validation_noops wStInv 0 (-2) wE1 VersionType.edit 0).2.2.2.2.2.2.2.2.2.1
     (by decide),
   (claim_C6_validation_noops wStInv 0 9 wE1 VersionType.edit 0).2.2.2.2.2.2.2.2.2.2.1 wHist1
     (by decide) (by decide),
   (claim_C6_validation_noops wStInv 0 0 wE1 VersionType.edit 0).2.2.2.2.2.2.2.2.2.2.2.1 wHist1
     (by decide) (by decide),
   (claim_C6_validation_noops wStInv (-4) 0 wE1 VersionType.edit 0).2.2.2.2.2.2.2.2.2.2.2.2
     (fun k hk => by
       simp only [wStInv, histGet_cons, histGet_nil]
       rw [if_neg (by omega : ¬(0 : Int) = k)]) (by decide)⟩

/-- C7: `ensureEventHistory` is idempotent.  Where an event exists and no
history exists, it creates exactly a one-entry history seeded from the
current event with `currentVersionIndex = 0` and provenance kind `edit` when
the event is an action and `regenerate` otherwise; calling it twice in a row
there yields exactly one entry, not two (the second call returns the state
of the first call verbatim); and it never changes the event log, the
pagination state, or the other state fields — it mutates the history store
only. -/
theorem claim_C7_ensure_idempotent (s : GameState) (p : Int) (now now2 : Nat) :
    (∀ e : Event, 0 ≤ p → histGet s.eventHistory p = none →
      arrGet s.events p = some e →
      histGet (ensureEventHistory p now s).eventHistory p =
        some ⟨[⟨e, now, if e.isAction then VersionType.edit else VersionType.regenerate⟩], 0⟩) ∧
    ensureEventHistory p now2 (ensureEventHistory p now s) = ensureEventHistory p now s ∧
    (ensureEventHistory p now s).events = s.events ∧
    (ensureEventHistory p now s).historyPagination = s.historyPagination ∧
    (ensureEventHistory p now s).other = s.other ∧
    (∀ e : Event, 0 ≤ p → histGet s.eventHistory p = none →
      arrGet s.events p = some e →
      ∃ h2, histGet (ensureEventHistory p now2 (ensureEventHistory p now s)).eventHistory p
          = some h2 ∧ h2.entries.length = 1) := by
  have hcreate : ∀ e : Event, 0 ≤ p → histGet s.eventHistory p = none →
      arrGet s.events p = some e →
      histGet (ensureEventHistory p now s).eventHistory p =
        some ⟨[⟨e, now, if e.isAction then VersionType.edit else VersionType.regenerate⟩], 0⟩ := by
    intro e hp hh he
    unfold ensureEventHistory
    rw [if_neg (by omega), seedHistory_creates now hh he]
    simp [histGet_histSet, seededHistory, seedEntry]
  have hidem : ensureEventHistory p now2 (ensureEventHistory p now s) =
      ensureEventHistory p now s := by
    unfold ensureEventHistory
    split
    · rfl
    · rename_i hneg
      cases hh : histGet s.eventHistory p with
      | some w =>
          rw [seedHistory_of_some now hh, seedHistory_of_some now2 hh]
      | none =>
          cases he : arrGet s.events p with
          | none =>
              rw [seedHistory_of_no_event now he, seedHistory_of_no_event now2 he]
          | some e =>
              have hseeded : histGet (seedHistory p now s).eventHistory p =
                  some (seededHistory e now) := by
                rw [seedHistory_creates now hh he]
                simp [histGet_histSet]
              exact seedHistory_of_some now2 hseeded
  refine ⟨hcreate, hidem, ?_, ?_, ?_, ?_⟩
  · unfold ensureEventHistory
    split
    · rfl
    · exact (seedHistory_frame p now s).1
  · unfold ensureEventHistory
    split
    · rfl
    · exact (seedHistory_frame p now s).2.1
  · unfold ensureEventHistory
    split
    · rfl
    · exact (seedHistory_frame p now s).2.2
  · intro e hp hh he
    refine ⟨⟨[⟨e, now, if e.isAction then VersionType.edit else VersionType.regenerate⟩], 0⟩,
      ?_, rfl⟩
    rw [hidem, hcreate e hp hh he]

/-- Witness for C7: position 0 of `wStNoHist` holds the action event `wE0`
and has no history. -/
theorem claim_C7_witness :
    histGet (ensureEventHistory 0 11 wStNoHist).eventHistory 0 =
      some ⟨[⟨wE0, 11, if wE0.isAction then VersionType.edit else VersionType.regenerate⟩], 0⟩ ∧
    ensureEventHistory 0 12 (ensureEventHistory 0 11 wStNoHist) =
      ensureEventHistory 0 11 wStNoHist :=
  ⟨(claim_C7_ensure_idempotent wStNoHist 0 11 12).1 wE0 (by decide) rfl (by decide),
   (claim_C7_ensure_idempotent wStNoHist 0 11 12).2.1⟩

/-- When an event exists at the position, the seed step always leaves a
history there. -/
theorem seedHistory_isSome_self {s : GameState} {p : Int} {e0 : Event} (now : Nat)
    (he0 : arrGet s.events p = some e0) :
    ∃ h0, histGet (seedHistory p now s).eventHistory p = some h0 := by
  cases hh : histGet s.eventHistory p with
  | some w => rw [seedHistory_of_some now hh]; exact ⟨w, hh⟩
  | none =>
      refine ⟨seededHistory e0 now, ?_⟩
      rw [seedHistory_creates now hh he0]
      simp [histGet_histSet]

/-- Unfolding `addEventHistoryVersion` when the position is non-negative and
the seed step left a history there. -/
theorem addVersion_spec {s : GameState} {i : Int} {h0 : EventHistory}
    (ev : Event) (t : VersionType) (now : Nat) (hp : ¬i < 0)
    (hh0 : histGet (seedHistory i now s).eventHistory i = some h0) :
    addEventHistoryVersion i ev t now s =
      { seedHistory i now s with
        eventHistory := histSet (seedHistory i now s).eventHistory i (appendedHistory h0 ev t now),
        events := arrSet (seedHistory i now s).events i ev } := by
  unfold addEventHistoryVersion
  rw [if_neg hp]
  simp only [hh0]
  rfl

/-- Unfolding `selectEventHistoryVersion` when the history and the selected
entry exist. -/
theorem select_spec {s : GameState} {i v : Int} {history : EventHistory}
    {entry : EventHistoryEntry}
    (hh : histGet s.eventHistory i = some history) (hv0 : 0 ≤ v)
    (hent : history.entries[v.toNat]? = some entry) :
    selectEventHistoryVersion i v s =
      { s with
        eventHistory := histSet s.eventHistory i ({ history with currentVersionIndex := v.toNat }),
        events := arrSet s.events i entry.event } := by
  unfold selectEventHistoryVersion
  simp only [hh, hent, if_pos hv0]

/-- C8: round-trip.  For a position holding an event, `addVersion(p, e,
"edit")`, then `selectVersion(p, 0)`, then `selectVersion(p, lastIndex)`
(with `lastIndex` the final index of the position's history) restores the
event log so that the entry at `p` is `e` again. -/
theorem claim_C8_roundtrip (s : GameState) (p : Int) (e e0 : Event) (now : Nat)
    (hp : 0 ≤ p) (he0 : arrGet s.events p = some e0) :
    ∃ h1,
      histGet (addEventHistoryVersion p e VersionType.edit now s).eventHistory p = some h1 ∧
      arrGet (selectEventHistoryVersion p ((h1.entries.length - 1 : Nat) : Int)
        (selectEventHistoryVersion p 0
          (addEventHistoryVersion p e VersionType.edit now s))).events p = some e := by
  have hpneg : ¬p < 0 := by omega
  obtain ⟨h0, hh0⟩ := seedHistory_isSome_self now he0
  have hadd := addVersion_spec e VersionType.edit now hpneg hh0
  have hlenA : (appendedHistory h0 e VersionType.edit now).entries.length =
      h0.entries.length + 1 := by
    simp [appendedHistory]
  have hgetA : histGet (addEventHistoryVersion p e VersionType.edit now s).eventHistory p =
      some (appendedHistory h0 e VersionType.edit now) := by
    rw [hadd]
    simp [histGet_histSet]
  have hevA : (addEventHistoryVersion p e VersionType.edit now s).events =
      arrSet s.events p e := by
    rw [hadd]
    show arrSet (seedHistory p now s).events p e = arrSet s.events p e
    rw [(seedHistory_frame p now s).1]
  refine ⟨appendedHistory h0 e VersionType.edit now, hgetA, ?_⟩
  have hpos : 0 < (appendedHistory h0 e VersionType.edit now).entries.length := by omega
  have hent0 : (appendedHistory h0 e VersionType.edit now).entries[(0:Int).toNat]? =
      some ((appendedHistory h0 e VersionType.edit now).entries.get ⟨0, hpos⟩) := by
    exact List.getElem?_eq_getElem hpos
  have hsel1 := select_spec hgetA (by omega : (0:Int) ≥ 0) hent0
  have hgetB : histGet (selectEventHistoryVersion p 0
        (addEventHistoryVersion p e VersionType.edit now s)).eventHistory p =
      some ({ appendedHistory h0 e VersionType.edit now with
        currentVersionIndex := (0:Int).toNat }) := by
    rw [hsel1]
    simp [histGet_histSet]
  have hentLast : ({ appendedHistory h0 e VersionType.edit now with
        currentVersionIndex := (0:Int).toNat }).entries[
          (((appendedHistory h0 e VersionType.edit now).entries.length - 1 : Nat) : Int).toNat]? =
      some { event := e, timestamp := now, type := VersionType.edit } := by
    simp only [Int.toNat_natCast]
    have h1 : (appendedHistory h0 e VersionType.edit now).entries.length - 1 =
        h0.entries.length := by omega
    rw [h1]
    show (h0.entries ++ [{ event := e, timestamp := now, type := VersionType.edit }])[
      h0.entries.length]? = _
    exact List.getElem?_concat_length h0.entries _
  have hsel2 := select_spec hgetB (by positivity) hentLast
  rw [hsel1] at hsel2 ⊢
  rw [hsel2]
  have hrangeB : p.toNat <
      (arrSet (addEventHistoryVersion p e VersionType.edit now s).events p
        ((appendedHistory h0 e VersionType.edit now).entries.get ⟨0, hpos⟩).event).length := by
    rw [length_arrSet, hevA, length_arrSet]
    exact arrGet_lt_length he0
  exact arrGet_arrSet_self hp hrangeB

/-- Witness for C8: round-trip at position 0 of `wStNoHist`, replacing the
action `wE0` by the narration `wE1`. -/
theorem claim_C8_witness :
    ∃ h1,
      histGet (addEventHistoryVersion 0 wE1 VersionType.edit 3 wStNoHist).eventHistory 0
        = some h1 ∧
      arrGet (selectEventHistoryVersion 0 ((h1.entries.length - 1 : Nat) : Int)
        (selectEventHistoryVersion 0 0
          (addEventHistoryVersion 0 wE1 VersionType.edit 3 wStNoHist))).events 0 = some wE1 :=
  claim_C8_roundtrip wStNoHist 0 wE1 wE0 3 (by decide) (by decide)

/-- The `slice` call of `getEventHistoryPage` with the non-negative bounds
the function produces is the drop/take slice. -/
theorem jsSlice_nonneg (l : List EventHistoryEntry) (a b : Nat) :
    jsSlice l (a : Int) ((a : Int) + (b : Int)) = (l.drop a).take b := by
  unfold jsSlice
  simp only []
  rw [if_neg (by omega : ¬(a : Int) < 0), if_neg (by omega : ¬(a : Int) + (b : Int) < 0)]
  by_cases hal : a ≤ l.length
  · have hs : (min (a : Int) (l.length : Int)).toNat = a := by omega
    rw [hs]
    by_cases habl : a + b ≤ l.length
    · have he : (min ((a : Int) + (b : Int)) (l.length : Int) -
          min (a : Int) (l.length : Int)).toNat = b := by omega
      rw [he]
    · have he : (min ((a : Int) + (b : Int)) (l.length : Int) -
          min (a : Int) (l.length : Int)).toNat = l.length - a := by omega
      rw [he]
      rw [List.take_of_length_le (by simp [List.length_drop]),
        List.take_of_length_le (by rw [List.length_drop]; omega)]
  · have hs : (min (a : Int) (l.length : Int)).toNat = l.length := by omega
    have he : (min ((a : Int) + (b : Int)) (l.length : Int) -
        min (a : Int) (l.length : Int)).toNat = 0 := by omega
    rw [hs, he]
    rw [show List.drop l.length l = [] from List.drop_eq_nil_of_le (by omega)]
    rw [show List.drop a l = [] from List.drop_eq_nil_of_le (by omega)]
    simp

/-- `Math.ceil(n / m)` equals `(n + m - 1) / m` for a positive divisor. -/
theorem jsCeilDiv_eq (n m : Nat) (hm : 0 < m) :
    jsCeilDiv n m = (n + m - 1) / m := by
  obtain ⟨q, r, hr, hn⟩ : ∃ q r, r < m ∧ n = m * q + r :=
    ⟨n / m, n % m, Nat.mod_lt n hm, (Nat.div_add_mod n m).symm⟩
  subst hn
  unfold jsCeilDiv
  rw [Nat.mul_add_div hm, Nat.mul_add_mod, Nat.mod_eq_of_lt hr, Nat.div_eq_of_lt hr]
  by_cases h : r = 0
  · subst h
    rw [if_pos rfl]
    rw [show m * q + 0 + m - 1 = m * q + (m - 1) by omega]
    rw [Nat.mul_add_div hm, Nat.div_eq_of_lt (by omega)]
  · rw [if_neg h]
    rw [show m * q + r + m - 1 = m * (q + 1) + (r - 1) by
      have hmq : m * (q + 1) = m * q + m := by ring
      omega]
    rw [Nat.mul_add_div hm, Nat.div_eq_of_lt (by omega)]

/-- C9: `getEventHistoryPage` returns exactly the slice
`entries[page*pageSize : page*pageSize+pageSize]` of the position's history,
and the empty sequence (never an error) when no history exists or the range
is out of range; `getEventHistoryPageCount` returns
`ceil(entries.length / pageSize)`, or 0 when no history exists.  Both are
pure functions of the state (they are read-only projections; neither returns
a modified store). -/
theorem claim_C9_pagination (s : GameState) (p : Int) (page pageSize : Nat) :
    (histGet s.eventHistory p = none →
      getEventHistoryPage p (page : Int) (pageSize : Int) s = [] ∧
      getEventHistoryPageCount p pageSize s = 0) ∧
    (∀ hist, histGet s.eventHistory p = some hist →
      getEventHistoryPage p (page : Int) (pageSize : Int) s =
        (hist.entries.drop (page * pageSize)).take pageSize ∧
      (hist.entries.length ≤ page * pageSize →
        getEventHistoryPage p (page : Int) (pageSize : Int) s = []) ∧
      (0 < pageSize →
        getEventHistoryPageCount p pageSize s =
          (hist.entries.length + pageSize - 1) / pageSize)) := by
  constructor
  · intro hh
    unfold getEventHistoryPage getEventHistoryPageCount
    rw [hh]
    exact ⟨rfl, rfl⟩
  · intro hist hh
    have hslice : getEventHistoryPage p (page : Int) (pageSize : Int) s =
        (hist.entries.drop (page * pageSize)).take pageSize := by
      unfold getEventHistoryPage
      rw [hh]
      show jsSlice hist.entries ((page : Int) * (pageSize : Int))
        ((page : Int) * (pageSize : Int) + (pageSize : Int)) = _
      rw [show (page : Int) * (pageSize : Int) = ((page * pageSize : Nat) : Int) by
        push_cast
        ring]
      exact jsSlice_nonneg hist.entries (page * pageSize) pageSize
    refine ⟨hslice, ?_, ?_⟩
    · intro hout
      rw [hslice, List.drop_eq_nil_of_le hout]
      simp
    · intro hps
      unfold getEventHistoryPageCount
      rw [hh]
      exact jsCeilDiv_eq hist.entries.length pageSize hps

/-- Witness for C9, on the twelve-entry history of `wStPage` with the
default page size 5: page 2 is the final two entries, page 5 is empty, and
the page count is 3. -/
theorem claim_C9_witness :
    getEventHistoryPage 0 2 5 wStPage = (wHist12.entries.drop 10).take 5 ∧
    getEventHistoryPage 0 5 5 wStPage = [] ∧
    getEventHistoryPageCount 0 5 wStPage = 3 :=
  ⟨((claim_C9_pagination wStPage 0 2 5).2 wHist12 rfl).1,
   ((claim_C9_pagination wStPage 0 5 5).2 wHist12 rfl).2.1 (by decide),
   ((claim_C9_pagination wStPage 0 2 5).2 wHist12 rfl).2.2 (by decide)⟩
